import Mathlib

/-!
# Verification of the `csv-partial-cache` library core

Shallow embedding of `src/lib.rs` of the `csv-partial-cache` Rust crate.

Modelling conventions:
* A byte stream (a `BufRead` source or the contents of the CSV file) is a
  `List Char`, each `Char` standing for one byte; byte offsets are `Nat`.
* The caller-chosen `Offset` type (`O : TryFrom<u64> + Into<u64>`) is modelled
  by its capacity `cap : Nat`: `O::try_from(n)` succeeds exactly when
  `n < cap` (for an N-bit unsigned type, `cap = 2^N`), and `Into<u64>` is the
  identity on the represented `Nat`.
* Fallible Rust functions returning `Result<A, Error>` become
  `Except Error A`.
* I/O-level failures that cannot occur on an in-memory stream (read errors,
  `stream_position` errors, file-open errors on existing modelled files) have
  their `Error` variants present but are not produced by the pure model.
-/

/-- The error enum of `src/lib.rs` (`pub enum Error`).  Payloads keep the
diagnostic data of the Rust variants (underlying `io::Error` / `serde_json`
/ `csv_line` sources are irrelevant to control flow and dropped). -/
inductive Error where
  | openFile (path : String)
  | createFile (path : String)
  | readFileMetadata (path : String)
  | getFileModified (path : String)
  | deserializeLine (line : List Char)
  | readLineErr (index : Nat) (name : String)
  | seekOffset (index : Nat) (name : String)
  | intoOffset (offset : Nat) (index : Nat) (name : String)
  | seek (path : String)
  | readLineOffset (offset : Nat) (path : String)
  | csvLine
  | decodeDetails (file : String) (offset : Nat) (line : List Char)
  | readCache (path : String)
  | writeCache (path : String)
deriving DecidableEq

/-- The index structure `CsvPartialCache<T>`: source file path plus the
boxed slice of partial records (modelled as a list). -/
structure CsvPartialCache (T : Type) where
  path : String
  items : List T
deriving DecidableEq

/-- The iterator state `LineOffset<B, O>`: the remaining buffered input,
the stream name, the 0-based count of lines already yielded, and the `offset`
field holding the stream position recorded after the last successful yield.
`pos` is the current stream position (`buf.stream_position()`), i.e. the
number of bytes consumed so far; in Rust it lives inside the reader `B`. -/
structure LineOffset where
  buf : List Char
  buf_name : String
  index : Nat
  offset : Nat
  pos : Nat
deriving DecidableEq

/-- `LineOffset::from_buf`: a fresh iterator over a stream positioned at its
start. -/
def LineOffset.from_buf (name : String) (buf : List Char) : LineOffset :=
  { buf := buf, buf_name := name, index := 0, offset := 0, pos := 0 }

/-- `BufRead::read_line` semantics on the remaining stream: returns the bytes
read (up to and including the first `\n`, or everything if none) and the rest
of the stream. -/
def read_line : List Char → List Char × List Char
  | [] => ([], [])
  | c :: cs =>
    if c = '\n' then ([c], cs)
    else (c :: (read_line cs).1, (read_line cs).2)

/-- The terminator stripping done in `LineOffset::next`: pop a trailing `\n`,
and then a trailing `\r` if present. -/
def stripNewline (l : List Char) : List Char :=
  if l.getLast? = some '\n' then
    if l.dropLast.getLast? = some '\r' then l.dropLast.dropLast else l.dropLast
  else l

/-- One call of `<LineOffset as Iterator>::next`.  Returns the yielded item
(`none` when `read_line` reads zero bytes) and the successor state.
On an `IntoOffset` error the `index` and `offset` fields are left unchanged
while the underlying reader has still consumed the line, exactly as in the
source. -/
def LineOffset.next (cap : Nat) (s : LineOffset) : Option (Except Error (List Char × Nat)) × LineOffset :=
  match s.buf with
  | [] => (none, s)
  | _ :: _ =>
    if s.offset < cap then
      (some (.ok (stripNewline (read_line s.buf).1, s.offset)),
        { s with
          buf := (read_line s.buf).2
          pos := s.pos + (read_line s.buf).1.length
          index := s.index + 1
          offset := s.pos + (read_line s.buf).1.length })
    else
      (some (.error (.intoOffset s.offset s.index s.buf_name)),
        { s with
          buf := (read_line s.buf).2
          pos := s.pos + (read_line s.buf).1.length })

/-- The raw lines of a stream: the successive `read_line` reads, terminators
included. -/
def rawLines : List Char → List (List Char)
  | [] => []
  | c :: cs =>
    if c = '\n' then ['\n'] :: rawLines cs
    else
      match rawLines cs with
      | [] => [[c]]
      | l :: ls => (c :: l) :: ls

/-- The sequence of items produced by repeatedly calling `LineOffset.next`
from a given state, one item per remaining raw line, tracking the `index`,
`offset` and stream-position fields exactly as `next` does.
(`LineOffset.items_step` below proves this agrees with `LineOffset.next`.) -/
def LineOffset.itemsFrom (cap : Nat) (name : String) :
    Nat → Nat → Nat → List (List Char) → List (Except Error (List Char × Nat))
  | _, _, _, [] => []
  | index, offset, pos, raw :: rest =>
    if offset < cap then
      .ok (stripNewline raw, offset) ::
        LineOffset.itemsFrom cap name (index + 1) (pos + raw.length) (pos + raw.length) rest
    else
      .error (.intoOffset offset index name) ::
        LineOffset.itemsFrom cap name index offset (pos + raw.length) rest

/-- All items the iterator yields from a state until `next` returns `none`. -/
def LineOffset.items (cap : Nat) (s : LineOffset) : List (Except Error (List Char × Nat)) :=
  LineOffset.itemsFrom cap s.buf_name s.index s.offset s.pos (rawLines s.buf)

/-- The `(stripped line, offset)` pairs the reader is expected to yield for a
list of raw lines whose first line starts at byte position `pos`: each offset
is the cumulative byte length of all prior raw lines (terminators included). -/
def expectedItems (pos : Nat) : List (List Char) → List (List Char × Nat)
  | [] => []
  | l :: ls => (stripNewline l, pos) :: expectedItems (pos + l.length) ls

-- ### Basic facts about `read_line` and `rawLines`

theorem read_line_append (l : List Char) : (read_line l).1 ++ (read_line l).2 = l := by
  induction l with
  | nil => rfl
  | cons c cs ih =>
    by_cases h : c = '\n' <;> simp [read_line, h, ih]

theorem read_line_fst_ne_nil (l : List Char) (h : l ≠ []) : (read_line l).1 ≠ [] := by
  cases l with
  | nil => exact absurd rfl h
  | cons c cs => by_cases hc : c = '\n' <;> simp [read_line, hc]

theorem read_line_snd_length (l : List Char) (h : l ≠ []) :
    (read_line l).2.length < l.length := by
  have happ := read_line_append l
  have hlen : (read_line l).1.length + (read_line l).2.length = l.length := by
    have := congrArg List.length happ
    simpa using this
  have hfst : (read_line l).1 ≠ [] := read_line_fst_ne_nil l h
  have : 0 < (read_line l).1.length := List.length_pos.mpr hfst
  omega

theorem rawLines_cons (l : List Char) (h : l ≠ []) :
    rawLines l = (read_line l).1 :: rawLines (read_line l).2 := by
  induction l with
  | nil => exact absurd rfl h
  | cons c cs ih =>
    by_cases hc : c = '\n'
    · simp [rawLines, read_line, hc]
    · have h1 : rawLines (c :: cs) =
          match rawLines cs with
          | [] => [[c]]
          | l :: ls => (c :: l) :: ls := by
        simp [rawLines, hc]
      have h2 : read_line (c :: cs) = (c :: (read_line cs).1, (read_line cs).2) := by
        simp [read_line, hc]
      rw [h1, h2]
      by_cases hnil : cs = []
      · subst hnil
        simp [rawLines, read_line]
      · rw [ih hnil]

theorem rawLines_flatten (l : List Char) : (rawLines l).flatten = l := by
  induction l with
  | nil => rfl
  | cons c cs ih =>
    by_cases hc : c = '\n'
    · simp [rawLines, hc, ih]
    · simp only [rawLines, if_neg hc]
      cases hcs : rawLines cs with
      | nil =>
        have : cs = [] := by
          have := ih
          rw [hcs] at this
          simpa using this.symm
        simp [this]
      | cons r rs =>
        rw [hcs] at ih
        simpa using ih

theorem rawLines_ne_nil (l : List Char) : ∀ r ∈ rawLines l, r ≠ [] := by
  induction l with
  | nil => intro r hr; simp [rawLines] at hr
  | cons c cs ih =>
    intro r hr
    by_cases hc : c = '\n'
    · simp only [rawLines, if_pos hc] at hr
      rcases List.mem_cons.mp hr with h1 | h1
      · subst h1
        simp
      · exact ih r h1
    · simp only [rawLines, if_neg hc] at hr
      cases hcs : rawLines cs with
      | nil =>
        rw [hcs] at hr
        have h1 : r = [c] := by simpa using hr
        subst h1
        simp
      | cons t ts =>
        rw [hcs] at hr
        rcases List.mem_cons.mp hr with h1 | h1
        · subst h1
          simp
        · exact ih r (by rw [hcs]; exact List.mem_cons_of_mem t h1)

theorem rawLines_length_sum (l : List Char) :
    ((rawLines l).map List.length).sum = l.length := by
  have := congrArg List.length (rawLines_flatten l)
  simpa [List.length_flatten] using this

/-- Faithfulness of `LineOffset.items` to the stateful iterator: the item
list from a state is what `next` yields there, followed by the items of the
successor state. -/
theorem LineOffset.items_step (cap : Nat) (s : LineOffset) :
    LineOffset.items cap s =
      match LineOffset.next cap s with
      | (none, _) => []
      | (some item, s1) => item :: LineOffset.items cap s1 := by
  cases hb : s.buf with
  | nil =>
    simp [LineOffset.items, LineOffset.next, hb, rawLines, LineOffset.itemsFrom]
  | cons c cs =>
    have hne : s.buf ≠ [] := by simp [hb]
    have hraw : rawLines s.buf = (read_line s.buf).1 :: rawLines (read_line s.buf).2 :=
      rawLines_cons s.buf hne
    by_cases hcap : s.offset < cap
    · simp only [LineOffset.items, LineOffset.next, hb]
      rw [← hb, hraw]
      simp [LineOffset.itemsFrom, hcap, hb]
    · simp only [LineOffset.items, LineOffset.next, hb]
      rw [← hb, hraw]
      simp [LineOffset.itemsFrom, hcap, hb]

-- ### The reader on inputs whose offsets all fit the Offset type

theorem itemsFrom_all_fit (cap : Nat) (name : String) (raws : List (List Char)) :
    ∀ (index pos : Nat), pos + (raws.map List.length).sum ≤ cap →
      (∀ r ∈ raws, r ≠ []) →
      LineOffset.itemsFrom cap name index pos pos raws
        = (expectedItems pos raws).map Except.ok := by
  induction raws with
  | nil => intro index pos _ _; simp [LineOffset.itemsFrom, expectedItems]
  | cons raw rest ih =>
    intro index pos hfit hne
    have hraw : raw ≠ [] := hne raw (List.mem_cons_self raw rest)
    have hpos : 0 < raw.length := List.length_pos.mpr hraw
    have hsum : pos + (raw.length + ((rest.map List.length).sum)) ≤ cap := by
      simpa using hfit
    have hlt : pos < cap := by omega
    have hrest : (pos + raw.length) + ((rest.map List.length).sum) ≤ cap := by omega
    simp only [LineOffset.itemsFrom, if_pos hlt, expectedItems, List.map_cons]
    rw [ih (index + 1) (pos + raw.length) hrest (fun r hr => hne r (List.mem_cons_of_mem raw hr))]

/-- C1: for every well-formed input stream (one whose byte positions all fit
the chosen Offset type), the offset line reader yields each line with its
trailing terminator stripped (`stripNewline`: a trailing `\n` removed, and a
`\r` immediately before it also removed; a lone `\r` preserved), paired with
an offset equal to the cumulative byte length of all prior lines including
their original terminators (`expectedItems`). -/
theorem reader_strips_terminators_and_reports_cumulative_offsets
    (cap : Nat) (name : String) (buf : List Char) (pos index : Nat)
    (hfit : pos + buf.length ≤ cap) :
    LineOffset.items cap
      { buf := buf, buf_name := name, index := index, offset := pos, pos := pos }
      = (expectedItems pos (rawLines buf)).map Except.ok := by
  simp only [LineOffset.items]
  exact itemsFrom_all_fit cap name (rawLines buf) index pos
    (by rw [rawLines_length_sum]; exact hfit) (rawLines_ne_nil buf)

/-- Witness for C1 at the input `"foo\nbar\r\nbaz"` with a 16-bit Offset
type: the reader yields `("foo", 0)`, `("bar", 4)`, `("baz", 9)`, then
ends. -/
theorem reader_strips_terminators_and_reports_cumulative_offsets_witness :
    0 + ("foo\nbar\r\nbaz".data).length ≤ 2 ^ 16 ∧
    LineOffset.items (2 ^ 16) (LineOffset.from_buf "noname" "foo\nbar\r\nbaz".data)
      = [Except.ok ("foo".data, 0), Except.ok ("bar".data, 4), Except.ok ("baz".data, 9)] :=
  ⟨by decide,
    (reader_strips_terminators_and_reports_cumulative_offsets
        (2 ^ 16) "noname" ("foo\nbar\r\nbaz".data) 0 0 (by decide)).trans (by rfl)⟩

/-- C7: when a line's true byte offset does not fit the caller-chosen Offset
type (`cap ≤ offset`), the reader yields a type-conversion error at that
position, carrying the untruncated 64-bit offset value, rather than a
wrapped offset. -/
theorem reader_overflow_yields_conversion_error (cap : Nat) (s : LineOffset)
    (hbuf : s.buf ≠ []) (hcap : cap ≤ s.offset) :
    (LineOffset.next cap s).1
      = some (.error (.intoOffset s.offset s.index s.buf_name)) := by
  cases hb : s.buf with
  | nil => exact absurd hb hbuf
  | cons c cs =>
    have hlt : ¬ s.offset < cap := by omega
    simp [LineOffset.next, hb, hlt]

/-- Witness for C7: with an 8-bit Offset type (`cap = 256 = 2^8`), in the
reader state reached after a 255-byte first line (offset field `256`), the
next call fails with `IntoOffset 256` instead of wrapping to `0`. -/
theorem reader_overflow_yields_conversion_error_witness :
    (LineOffset.next 256
      { buf := "foo".data, buf_name := "noname", index := 1, offset := 256, pos := 256 }).1
      = some (.error (.intoOffset 256 1 "noname")) :=
  reader_overflow_yields_conversion_error 256
    { buf := "foo".data, buf_name := "noname", index := 1, offset := 256, pos := 256 }
    (by decide) (by decide)

/-- C8 counterexample: the reader does not terminate after yielding an error
item.  With `cap = 4` on input `"abcd\nef\ngh"`, the second item is an
offset-conversion error and a third item (another error) still follows it,
refuting "yields exactly one error item and then no further items". -/
theorem reader_error_item_is_followed_by_further_items :
    LineOffset.items 4 (LineOffset.from_buf "noname" "abcd\nef\ngh".data)
      = [Except.ok ("abcd".data, 0),
         Except.error (.intoOffset 5 1 "noname"),
         Except.error (.intoOffset 5 1 "noname")] := by
  rfl

theorem itemsFrom_overflow_repeats (cap : Nat) (name : String)
    (raws : List (List Char)) :
    ∀ (index offset pos : Nat), cap ≤ offset →
      LineOffset.itemsFrom cap name index offset pos raws
        = raws.map (fun _ => .error (.intoOffset offset index name)) := by
  induction raws with
  | nil => intro index offset pos _; simp [LineOffset.itemsFrom]
  | cons raw rest ih =>
    intro index offset pos h
    have hlt : ¬ offset < cap := by omega
    simp only [LineOffset.itemsFrom, if_neg hlt, List.map_cons]
    rw [ih index offset (pos + raw.length) h]

/-- C8 amended: an error item does not terminate the sequence.  After an
offset-conversion failure the `offset` and `index` fields are left unchanged
while the stream still advances past the line, so every remaining line of
the stream yields the same offset-conversion error again, and the sequence
ends only when the stream is exhausted. -/
theorem reader_overflow_error_repeats_until_eof (cap : Nat) (s : LineOffset)
    (h : cap ≤ s.offset) :
    LineOffset.items cap s
      = (rawLines s.buf).map
          (fun _ => .error (.intoOffset s.offset s.index s.buf_name)) := by
  simp only [LineOffset.items]
  exact itemsFrom_overflow_repeats cap s.buf_name (rawLines s.buf)
    s.index s.offset s.pos h

/-- Witness for the amended C8: from the state reached after the first
overflow error on input `"abcd\nef\ngh"` with `cap = 4`, both remaining lines
yield the same error. -/
theorem reader_overflow_error_repeats_until_eof_witness :
    LineOffset.items 4
      { buf := "ef\ngh".data, buf_name := "noname", index := 1, offset := 5, pos := 5 }
      = [Except.error (.intoOffset 5 1 "noname"),
         Except.error (.intoOffset 5 1 "noname")] :=
  (reader_overflow_error_repeats_until_eof 4
      { buf := "ef\ngh".data, buf_name := "noname", index := 1, offset := 5, pos := 5 }
      (by decide)).trans (by rfl)

-- ### Index construction (`CsvPartialCache::new`)

/-- The body of the `for row in index` loop of `CsvPartialCache::new`:
`let (line, offset) = row?; items.push(T::from_line_offset(&line, offset)?)`.
`decoder` models the caller's `T::from_line_offset`.  The first failing row
(a reader error, or a line whose decode fails) aborts with that error. -/
def collectRows {T : Type} (decoder : List Char → Nat → Except Error T) :
    List (Except Error (List Char × Nat)) → Except Error (List T)
  | [] => .ok []
  | .error e :: _ => .error e
  | .ok lo :: rest =>
    match decoder lo.1 lo.2 with
    | .error e => .error e
    | .ok t =>
      match collectRows decoder rest with
      | .error e => .error e
      | .ok ts => .ok (t :: ts)

/-- The rows `CsvPartialCache::new` iterates over: the items of the reader
after the single `index.next()` call that skips the header (its result is
discarded). -/
def dataRows (cap : Nat) (path : String) (content : List Char) :
    List (Except Error (List Char × Nat)) :=
  LineOffset.items cap ((LineOffset.next cap (LineOffset.from_buf path content)).2)

/-- `CsvPartialCache::new`: open the file, skip the header line, decode every
remaining `(line, offset)` pair, and collect the records. -/
def CsvPartialCache.new {T : Type} (decoder : List Char → Nat → Except Error T)
    (cap : Nat) (path : String) (content : List Char) :
    Except Error (CsvPartialCache T) :=
  match collectRows decoder (dataRows cap path content) with
  | .error e => .error e
  | .ok items => .ok { path := path, items := items }

/-- A row the build loop passes without error: the reader yielded `Ok` and
the decoder succeeds on it. -/
def rowOk {T : Type} (decoder : List Char → Nat → Except Error T)
    (r : Except Error (List Char × Nat)) : Prop :=
  ∃ lo t, r = .ok lo ∧ decoder lo.1 lo.2 = .ok t

/-- A row on which the build loop fails with error `e`: either a reader
error `e`, or a successfully read line whose decode fails with `e`. -/
def rowFails {T : Type} (decoder : List Char → Nat → Except Error T)
    (r : Except Error (List Char × Nat)) (e : Error) : Prop :=
  r = .error e ∨ ∃ lo, r = .ok lo ∧ decoder lo.1 lo.2 = .error e

theorem collectRows_error_at {T : Type} (decoder : List Char → Nat → Except Error T)
    (pre : List (Except Error (List Char × Nat))) :
    ∀ (row : Except Error (List Char × Nat))
      (rest : List (Except Error (List Char × Nat))) (e : Error),
      (∀ r ∈ pre, rowOk decoder r) → rowFails decoder row e →
      collectRows decoder (pre ++ row :: rest) = .error e := by
  induction pre with
  | nil =>
    intro row rest e _ hrow
    rcases hrow with h | ⟨lo, hr, hd⟩
    · subst h
      rfl
    · subst hr
      simp [collectRows, hd]
  | cons r pre ih =>
    intro row rest e hpre hrow
    rcases hpre r (List.mem_cons_self r pre) with ⟨lo, t, hr, hd⟩
    subst hr
    simp only [List.cons_append, collectRows, hd, List.append_eq]
    rw [ih row rest e (fun x hx => hpre x (List.mem_cons_of_mem _ hx)) hrow]

/-- C5: during index construction, the first failing row — a reader error or
a line whose decode fails, at any position — makes the whole build return
that error; no partially built index is returned. -/
theorem new_propagates_first_row_error {T : Type}
    (decoder : List Char → Nat → Except Error T) (cap : Nat) (path : String)
    (content : List Char) (pre : List (Except Error (List Char × Nat)))
    (row : Except Error (List Char × Nat))
    (rest : List (Except Error (List Char × Nat))) (e : Error)
    (hsplit : dataRows cap path content = pre ++ row :: rest)
    (hpre : ∀ r ∈ pre, rowOk decoder r)
    (hrow : rowFails decoder row e) :
    CsvPartialCache.new decoder cap path content = .error e := by
  unfold CsvPartialCache.new
  rw [hsplit, collectRows_error_at decoder pre row rest e hpre hrow]

/-- Witness for C5: a decoder that rejects every line makes the build of
`"h\nok"` fail with the decode error of the first data line, even though the
reader itself succeeds. -/
theorem new_propagates_first_row_error_witness :
    CsvPartialCache.new
        (fun l _ => (Except.error (.deserializeLine l) : Except Error Unit))
        64 "f.csv" "h\nok".data
      = .error (.deserializeLine "ok".data) :=
  new_propagates_first_row_error
    (fun l _ => (Except.error (.deserializeLine l) : Except Error Unit))
    64 "f.csv" "h\nok".data [] (.ok ("ok".data, 2)) [] (.deserializeLine "ok".data)
    (by rfl) (fun r hr => absurd hr (List.not_mem_nil r))
    (Or.inr ⟨("ok".data, 2), rfl, rfl⟩)

-- ### C6: header skip and items/data-lines correspondence

/-- Byte offset at which the `k`-th raw line (0-based) of `content` starts:
the total byte length of the raw lines before it, terminators included. -/
def lineStartOffset (content : List Char) (k : Nat) : Nat :=
  (((rawLines content).take k).map List.length).sum

/-- Number of data lines of a file: its lines after the first (header)
line. -/
def numDataLines (content : List Char) : Nat :=
  (rawLines content).length - 1

theorem collectRows_ok_inv {T : Type} (decoder : List Char → Nat → Except Error T)
    (cap : Nat) (name : String) (raws : List (List Char)) :
    ∀ (index pos : Nat) (ts : List T),
      collectRows decoder (LineOffset.itemsFrom cap name index pos pos raws) = .ok ts →
      ts.length = raws.length ∧
      ∀ i t, ts.get? i = some t → ∃ raw, raws.get? i = some raw ∧
        decoder (stripNewline raw) (pos + ((raws.take i).map List.length).sum) = .ok t := by
  induction raws with
  | nil =>
    intro index pos ts h
    simp only [LineOffset.itemsFrom, collectRows] at h
    cases h
    exact ⟨rfl, by intro i t ht; simp at ht⟩
  | cons raw rest ih =>
    intro index pos ts h
    by_cases hlt : pos < cap
    · simp only [LineOffset.itemsFrom, if_pos hlt, collectRows] at h
      cases hd : decoder (stripNewline raw) pos with
      | error e => rw [hd] at h; cases h
      | ok t =>
        rw [hd] at h
        cases hrest : collectRows decoder
            (LineOffset.itemsFrom cap name (index + 1) (pos + raw.length)
              (pos + raw.length) rest) with
        | error e => rw [hrest] at h; cases h
        | ok ts2 =>
          rw [hrest] at h
          cases h
          rcases ih (index + 1) (pos + raw.length) ts2 hrest with ⟨hlen, hget⟩
          refine ⟨by simp [hlen], ?_⟩
          intro i u hu
          cases i with
          | zero =>
            have h0 : t = u := by simpa using hu
            subst h0
            exact ⟨raw, rfl, by simpa using hd⟩
          | succ j =>
            have hu2 : ts2.get? j = some u := by simpa using hu
            rcases hget j u hu2 with ⟨raw2, hraw2, hdec2⟩
            refine ⟨raw2, by simpa using hraw2, ?_⟩
            have harith :
                pos + (((raw :: rest).take (j + 1)).map List.length).sum
                  = pos + raw.length + ((rest.take j).map List.length).sum := by
              simp [List.take_succ_cons]
              omega
            rw [harith]
            exact hdec2
    · simp only [LineOffset.itemsFrom, if_neg hlt, collectRows] at h
      cases h

/-- `LineOffset.next` on a fresh reader over a nonempty stream, when `0`
fits the Offset type: yields the stripped first line at offset `0` and
leaves the reader positioned after it. -/
theorem LineOffset.next_nonempty_start (cap : Nat) (name : String) (l : List Char)
    (hne : l ≠ []) (hcap : 0 < cap) :
    LineOffset.next cap (LineOffset.from_buf name l)
      = (some (.ok (stripNewline (read_line l).1, 0)),
         { buf := (read_line l).2, buf_name := name, index := 1,
           offset := (read_line l).1.length, pos := (read_line l).1.length }) := by
  cases l with
  | nil => exact absurd rfl hne
  | cons c cs => simp [LineOffset.next, LineOffset.from_buf, hcap]

/-- C6: a successfully built index contains no record decoded from the
file's first line: every item at position `i` is the decode of raw line
`i + 1` (taken at its cumulative byte offset), and the number of items
equals the number of data lines (lines after the first) of the file. -/
theorem new_skips_header_and_indexes_data_lines {T : Type}
    (decoder : List Char → Nat → Except Error T) (cap : Nat) (path : String)
    (content : List Char) (index : CsvPartialCache T)
    (hcap : 0 < cap)
    (hok : CsvPartialCache.new decoder cap path content = .ok index) :
    index.items.length = numDataLines content ∧
    ∀ i t, index.items.get? i = some t →
      ∃ raw, (rawLines content).get? (i + 1) = some raw ∧
        decoder (stripNewline raw) (lineStartOffset content (i + 1)) = .ok t := by
  unfold CsvPartialCache.new at hok
  cases hcr : collectRows decoder (dataRows cap path content) with
  | error e => rw [hcr] at hok; cases hok
  | ok ts =>
    rw [hcr] at hok
    cases hok
    by_cases hne0 : content = []
    · subst hne0
      simp only [dataRows, LineOffset.from_buf, LineOffset.next, LineOffset.items,
        rawLines, LineOffset.itemsFrom, collectRows] at hcr
      cases hcr
      refine ⟨by simp [numDataLines, rawLines], ?_⟩
      intro i t ht
      simp at ht
    · have hraw := rawLines_cons content hne0
      have hnext := LineOffset.next_nonempty_start cap path content hne0 hcap
      unfold dataRows at hcr
      rw [hnext] at hcr
      simp only [LineOffset.items] at hcr
      rcases collectRows_ok_inv decoder cap path (rawLines (read_line content).2)
          1 ((read_line content).1.length) ts hcr with ⟨hlen, hget⟩
      constructor
      · show ts.length = numDataLines content
        rw [hlen, numDataLines, hraw]
        simp
      · intro i t ht
        rcases hget i t ht with ⟨raw2, hraw2, hdec2⟩
        refine ⟨raw2, ?_, ?_⟩
        · rw [hraw]
          simpa using hraw2
        · have harith : lineStartOffset content (i + 1)
              = (read_line content).1.length
                + (((rawLines (read_line content).2).take i).map List.length).sum := by
            rw [lineStartOffset, hraw]
            simp [List.take_succ_cons]
          rw [harith]
          exact hdec2

/-- Witness for C6: building over `"h\nab\ncd"` with a decoder that records
`(line, offset)` skips the header `"h"`, yields two items for the two data
lines, and item 1 is the decode of raw line 2 at its cumulative offset. -/
theorem new_skips_header_and_indexes_data_lines_witness :
    ((⟨"f.csv", [("ab".data, 2), ("cd".data, 5)]⟩
        : CsvPartialCache (List Char × Nat)).items.length
      = numDataLines "h\nab\ncd".data) ∧
    ∃ raw, (rawLines "h\nab\ncd".data).get? (1 + 1) = some raw ∧
      (fun (l : List Char) (o : Nat) =>
          (Except.ok (l, o) : Except Error (List Char × Nat)))
        (stripNewline raw) (lineStartOffset "h\nab\ncd".data (1 + 1))
        = .ok ("cd".data, 5) :=
  have h := new_skips_header_and_indexes_data_lines
    (fun l o => (Except.ok (l, o) : Except Error (List Char × Nat))) 64 "f.csv"
    ("h\nab\ncd".data) ⟨"f.csv", [("ab".data, 2), ("cd".data, 5)]⟩
    (by decide) (by rfl)
  ⟨h.1, h.2 1 ("cd".data, 5) (by rfl)⟩

-- ### Lookup (`CsvPartialCache::find`)

theorem get?_some_of_lt {α : Type} :
    ∀ (l : List α) (n : Nat), n < l.length → ∃ x, l.get? n = some x := by
  intro l
  induction l with
  | nil => intro n h; simp at h
  | cons a tl ih =>
    intro n h
    cases n with
    | zero => exact ⟨a, rfl⟩
    | succ m => exact ih m (by simpa using h)

theorem lt_of_get?_eq_some {α : Type} :
    ∀ (l : List α) (n : Nat) (x : α), l.get? n = some x → n < l.length := by
  intro l
  induction l with
  | nil => intro n x h; simp at h
  | cons a tl ih =>
    intro n x h
    cases n with
    | zero => simp
    | succ m => simpa using Nat.succ_lt_succ (ih m x (by simpa using h))

theorem mem_of_get?_eq_some {α : Type} :
    ∀ (l : List α) (n : Nat) (x : α), l.get? n = some x → x ∈ l := by
  intro l
  induction l with
  | nil => intro n x h; simp at h
  | cons a tl ih =>
    intro n x h
    cases n with
    | zero =>
      have h0 : a = x := by simpa using h
      subst h0
      exact List.mem_cons_self a tl
    | succ m => exact List.mem_cons_of_mem a (ih m x (by simpa using h))

theorem get?_of_mem {α : Type} :
    ∀ (l : List α) (x : α), x ∈ l → ∃ n, l.get? n = some x := by
  intro l
  induction l with
  | nil => intro x h; cases h
  | cons a tl ih =>
    intro x h
    rcases List.mem_cons.mp h with h1 | h1
    · exact ⟨0, by simp [h1]⟩
    · rcases ih x h1 with ⟨n, hn⟩
      exact ⟨n + 1, by simpa using hn⟩

/-- On a list sorted (non-strictly) by the projection `f`, the keys read off
by position are monotone. -/
theorem sorted_get?_mono {T B : Type} [LinearOrder B] (f : T → B) (l : List T)
    (hl : List.Pairwise (fun x y => f x ≤ f y) l) :
    ∀ (i j : Nat) (xi xj : T), i ≤ j → l.get? i = some xi → l.get? j = some xj →
      f xi ≤ f xj := by
  induction hl with
  | nil => intro i j xi xj _ hi _; simp at hi
  | @cons x tl hx htl ih =>
    intro i j xi xj hij hi hj
    cases i with
    | zero =>
      have h0 : x = xi := by simpa using hi
      subst h0
      cases j with
      | zero =>
        have h1 : x = xj := by simpa using hj
        subst h1
        exact le_refl _
      | succ m =>
        exact hx xj (mem_of_get?_eq_some tl m xj (by simpa using hj))
    | succ n =>
      cases j with
      | zero => omega
      | succ m =>
        exact ih n m xi xj (by omega) (by simpa using hi) (by simpa using hj)

/-- The loop of core Rust `slice::binary_search_by` as driven by
`binary_search_by_key(b, f)`: maintains the half-open window
`[left, right)`; at each step probes `mid = left + size / 2`, moving
`left` past `mid` on `Less`, `right` to `mid` on `Greater`, and returning
`Ok(mid)` on `Equal`; returns `Err(left)` when the window empties.
(The `none` row of the probe is unreachable while `right ≤ items.length`.) -/
def binary_search_go {T B : Type} [LinearOrder B] (items : List T) (f : T → B) (b : B) :
    Nat → Nat → Except Nat Nat
  | left, right =>
    if _h : left < right then
      match items.get? (left + (right - left) / 2) with
      | none => .error left
      | some x =>
        if f x < b then binary_search_go items f b (left + (right - left) / 2 + 1) right
        else if b < f x then binary_search_go items f b left (left + (right - left) / 2)
        else .ok (left + (right - left) / 2)
    else .error left
termination_by left right => right - left
decreasing_by
  · omega
  · omega

/-- `CsvPartialCache::find`: `self.items.binary_search_by_key(b, f)`, mapping
a found index to the record there and `Err` to "not found". -/
def CsvPartialCache.find {T B : Type} [LinearOrder B] (c : CsvPartialCache T)
    (b : B) (f : T → B) : Option T :=
  match binary_search_go c.items f b 0 c.items.length with
  | .ok i => c.items.get? i
  | .error _ => none

theorem binary_search_go_stop {T B : Type} [LinearOrder B] (items : List T)
    (f : T → B) (b : B) (left right : Nat) (h : ¬ left < right) :
    binary_search_go items f b left right = .error left := by
  unfold binary_search_go
  rw [dif_neg h]

theorem binary_search_go_oob {T B : Type} [LinearOrder B] (items : List T)
    (f : T → B) (b : B) (left right : Nat) (hlr : left < right)
    (hx : items.get? (left + (right - left) / 2) = none) :
    binary_search_go items f b left right = .error left := by
  unfold binary_search_go
  rw [dif_pos hlr, hx]

theorem binary_search_go_probe {T B : Type} [LinearOrder B] (items : List T)
    (f : T → B) (b : B) (left right : Nat) (hlr : left < right) (x : T)
    (hx : items.get? (left + (right - left) / 2) = some x) :
    binary_search_go items f b left right =
      if f x < b then binary_search_go items f b (left + (right - left) / 2 + 1) right
      else if b < f x then binary_search_go items f b left (left + (right - left) / 2)
      else .ok (left + (right - left) / 2) := by
  conv_lhs => unfold binary_search_go
  rw [dif_pos hlr, hx]

theorem binary_search_go_ok_key {T B : Type} [LinearOrder B] (items : List T)
    (f : T → B) (b : B) :
    ∀ (n left right i : Nat), right - left ≤ n →
      binary_search_go items f b left right = .ok i →
      ∃ x, items.get? i = some x ∧ f x = b := by
  intro n
  induction n with
  | zero =>
    intro left right i hle h
    have hnlt : ¬ left < right := by omega
    rw [binary_search_go_stop items f b left right hnlt] at h
    cases h
  | succ n ih =>
    intro left right i hle h
    by_cases hlr : left < right
    · cases hget : items.get? (left + (right - left) / 2) with
      | none =>
        rw [binary_search_go_oob items f b left right hlr hget] at h
        cases h
      | some x =>
        rw [binary_search_go_probe items f b left right hlr x hget] at h
        by_cases h1 : f x < b
        · rw [if_pos h1] at h
          exact ih (left + (right - left) / 2 + 1) right i (by omega) h
        · rw [if_neg h1] at h
          by_cases h2 : b < f x
          · rw [if_pos h2] at h
            exact ih left (left + (right - left) / 2) i (by omega) h
          · rw [if_neg h2] at h
            cases h
            exact ⟨x, hget, le_antisymm (not_lt.mp h2) (not_lt.mp h1)⟩
    · rw [binary_search_go_stop items f b left right hlr] at h
      cases h

theorem binary_search_go_finds {T B : Type} [LinearOrder B] (items : List T)
    (f : T → B) (b : B)
    (hs : List.Pairwise (fun x y => f x ≤ f y) items) :
    ∀ (n left right : Nat), right - left ≤ n → right ≤ items.length →
      (∃ j xj, left ≤ j ∧ j < right ∧ items.get? j = some xj ∧ f xj = b) →
      ∃ i, binary_search_go items f b left right = .ok i := by
  intro n
  induction n with
  | zero =>
    intro left right hle _ hex
    rcases hex with ⟨j, xj, hlj, hjr, _, _⟩
    omega
  | succ n ih =>
    intro left right hle hright hex
    rcases hex with ⟨j, xj, hlj, hjr, hgj, hfj⟩
    have hlr : left < right := by omega
    have hmidlt : left + (right - left) / 2 < right := by omega
    have hmidlen : left + (right - left) / 2 < items.length := by omega
    rcases get?_some_of_lt items _ hmidlen with ⟨x, hx⟩
    rw [binary_search_go_probe items f b left right hlr x hx]
    by_cases h1 : f x < b
    · rw [if_pos h1]
      apply ih (left + (right - left) / 2 + 1) right (by omega) hright
      refine ⟨j, xj, ?_, hjr, hgj, hfj⟩
      by_contra hcon
      push_neg at hcon
      have hmono : f xj ≤ f x :=
        sorted_get?_mono f items hs j _ xj x (by omega) hgj hx
      rw [hfj] at hmono
      exact absurd h1 (not_lt.mpr hmono)
    · rw [if_neg h1]
      by_cases h2 : b < f x
      · rw [if_pos h2]
        apply ih left (left + (right - left) / 2) (by omega) (by omega)
        have hjmid : j < left + (right - left) / 2 := by
          by_contra hcon
          push_neg at hcon
          have hmono : f x ≤ f xj :=
            sorted_get?_mono f items hs _ j x xj hcon hx hgj
          rw [hfj] at hmono
          exact absurd h2 (not_lt.mpr hmono)
        exact ⟨j, xj, hlj, hjmid, hgj, hfj⟩
      · rw [if_neg h2]
        exact ⟨left + (right - left) / 2, rfl⟩

/-- C4: on an items collection sorted ascending by the projection `f`,
`find` returns some record whose projected key equals the target whenever
one exists, and returns `none` (not an exception) when no record has that
key; which of several equal matches is returned is unspecified. -/
theorem find_returns_match_iff_present {T B : Type} [LinearOrder B]
    (c : CsvPartialCache T) (b : B) (f : T → B)
    (hs : List.Pairwise (fun x y => f x ≤ f y) c.items) :
    ((∃ x ∈ c.items, f x = b) →
        ∃ x, CsvPartialCache.find c b f = some x ∧ f x = b ∧ x ∈ c.items) ∧
    ((∀ x ∈ c.items, f x ≠ b) → CsvPartialCache.find c b f = none) := by
  constructor
  · intro hex
    rcases hex with ⟨x0, hmem, hfx⟩
    rcases get?_of_mem c.items x0 hmem with ⟨j, hj⟩
    have hjlt : j < c.items.length := lt_of_get?_eq_some c.items j x0 hj
    rcases binary_search_go_finds c.items f b hs c.items.length 0 c.items.length
        (by omega) (le_refl _) ⟨j, x0, Nat.zero_le j, hjlt, hj, hfx⟩ with ⟨i, hi⟩
    rcases binary_search_go_ok_key c.items f b c.items.length 0 c.items.length i
        (by omega) hi with ⟨x, hgx, hfb⟩
    refine ⟨x, ?_, hfb, mem_of_get?_eq_some c.items i x hgx⟩
    unfold CsvPartialCache.find
    rw [hi]
    exact hgx
  · intro hall
    unfold CsvPartialCache.find
    cases hbs : binary_search_go c.items f b 0 c.items.length with
    | error k => rfl
    | ok i =>
      rcases binary_search_go_ok_key c.items f b c.items.length 0 c.items.length i
        (by omega) hbs with ⟨x, hgx, hfb⟩
      exact absurd hfb (hall x (mem_of_get?_eq_some c.items i x hgx))

/-- Witness for C4 on the sorted collection `[10, 20, 30]` keyed by `id`:
key `20` is found with matching key, key `99` yields `none`. -/
theorem find_returns_match_iff_present_witness :
    (∃ x, CsvPartialCache.find (⟨"p.csv", [10, 20, 30]⟩ : CsvPartialCache Nat) 20 id
        = some x ∧ id x = 20 ∧ x ∈ [10, 20, 30]) ∧
    CsvPartialCache.find (⟨"p.csv", [10, 20, 30]⟩ : CsvPartialCache Nat) 99 id = none :=
  ⟨(find_returns_match_iff_present ⟨"p.csv", [10, 20, 30]⟩ 20 id (by decide)).1
      ⟨20, by decide, rfl⟩,
    (find_returns_match_iff_present ⟨"p.csv", [10, 20, 30]⟩ 99 id (by decide)).2
      (by decide)⟩

-- ### Lazy full-record fetch (`details_line` / `full_record`)

theorem read_line_no_inner_newline (l : List Char) :
    (read_line l).1.dropLast.count '\n' = 0 := by
  induction l with
  | nil => rfl
  | cons c cs ih =>
    by_cases hc : c = '\n'
    · simp [read_line, hc]
    · simp only [read_line, if_neg hc]
      cases hfst : (read_line cs).1 with
      | nil => simp [hfst]
      | cons d ds =>
        rw [hfst] at ih
        have hdl : (c :: d :: ds).dropLast = c :: (d :: ds).dropLast := rfl
        rw [hdl]
        simp [List.count_cons, hc, ih]

theorem read_line_terminator (l : List Char) :
    (read_line l).1.getLast? = some '\n' ∨ (read_line l).1 = l := by
  induction l with
  | nil => exact Or.inr rfl
  | cons c cs ih =>
    by_cases hc : c = '\n'
    · exact Or.inl (by simp [read_line, hc])
    · simp only [read_line, if_neg hc]
      rcases ih with h | h
      · left
        cases hfst : (read_line cs).1 with
        | nil => rw [hfst] at h; simp at h
        | cons d ds =>
          rw [hfst] at h
          rw [List.getLast?_cons_cons]
          exact h
      · right
        rw [h]

/-- `CsvPartialCache::details_line`: reopen the source file (`content` is
the byte content of the file at `self.path`), seek to
`row.offset().into()` (the stored Offset, losslessly widened to the 64-bit
seek position), and read one line from that position.  The line is
returned as read: its terminator is NOT stripped here. -/
def CsvPartialCache.details_line {T : Type} (c : CsvPartialCache T)
    (content : List Char) (offset : T → Nat) (row : T) : List Char :=
  (read_line (content.drop (offset row))).1

/-- `CsvPartialCache::full_record`: read the line at the record's stored
offset and decode it with `csv_line::from_str` (modelled by the external
decode capability `dec`); a decode failure is wrapped into
`Error::DecodeDetails` carrying the file path, the byte offset and the raw
line content. -/
def CsvPartialCache.full_record {T D : Type} (c : CsvPartialCache T)
    (content : List Char) (offset : T → Nat) (dec : List Char → Except Unit D)
    (row : T) : Except Error D :=
  match dec (c.details_line content offset row) with
  | .ok d => .ok d
  | .error _ =>
    .error (.decodeDetails c.path (offset row) (c.details_line content offset row))

/-- C9: `full_record` reads exactly the one line starting at the record's
stored byte offset of the source file — the line read is a prefix of the
file content from that byte position, contains no interior `\n`, and either
ends with `\n` or extends to the end of the file — and decodes that exact
line; on decode failure the error carries the file path, the byte offset,
and the raw line content. -/
theorem full_record_reads_exact_line_at_offset {T D : Type}
    (c : CsvPartialCache T) (content : List Char) (offset : T → Nat)
    (dec : List Char → Except Unit D) (row : T) :
    (c.details_line content offset row ++ (read_line (content.drop (offset row))).2
        = content.drop (offset row)) ∧
    ((c.details_line content offset row).dropLast.count '\n' = 0) ∧
    ((c.details_line content offset row).getLast? = some '\n' ∨
        c.details_line content offset row = content.drop (offset row)) ∧
    (CsvPartialCache.full_record c content offset dec row =
      match dec (c.details_line content offset row) with
      | .ok d => .ok d
      | .error _ =>
        .error (.decodeDetails c.path (offset row) (c.details_line content offset row))) :=
  ⟨read_line_append (content.drop (offset row)),
    read_line_no_inner_newline (content.drop (offset row)),
    read_line_terminator (content.drop (offset row)),
    rfl⟩

-- ### Snapshot cache (`is_cache_expired`, `from_cache`, `items_to_cache`)

/-- `is_cache_expired`: the cache is expired when the snapshot file does not
exist, or when `cache_modified < csv_modified` — i.e. when the snapshot's
modification time is strictly older than the source file's.
`csv_modified` is the source file's mtime; `cache` is the snapshot file's
mtime when the snapshot exists (`SystemTime` values modelled as `Nat`;
metadata-read failures are I/O-level and outside the pure model). -/
def is_cache_expired (csv_modified : Nat) (cache : Option Nat) : Bool :=
  match cache with
  | none => true
  | some cache_modified => decide (cache_modified < csv_modified)

/-- The filesystem state `from_cache` interacts with: the source file's
content and mtime, and — when the snapshot file exists — its mtime together
with the record list its bytes deserialize to (the `serde_json` round trip
on a derived `Serialize`/`Deserialize` record list is modelled as
faithful). -/
structure FileSys (T : Type) where
  csv_content : List Char
  csv_modified : Nat
  cache : Option (Nat × List T)

/-- `CsvPartialCache::from_cache`: if the snapshot is expired, rebuild via
`CsvPartialCache::new` and serialize the fresh items to the snapshot path
(the written list is reported as the `Option (List T)` component, `none`
when nothing is written); otherwise deserialize the records directly from
the snapshot, without touching the source file content, keeping `path`
pointing at the source CSV file.  (The `none` snapshot row of the fresh
branch is unreachable: a missing snapshot is always expired.) -/
def CsvPartialCache.from_cache {T : Type}
    (decoder : List Char → Nat → Except Error T) (cap : Nat)
    (csv_path cache_path : String) (fs : FileSys T) :
    Except Error (CsvPartialCache T × Option (List T)) :=
  if is_cache_expired fs.csv_modified (fs.cache.map Prod.fst) = true then
    match CsvPartialCache.new decoder cap csv_path fs.csv_content with
    | .error e => .error e
    | .ok index => .ok (index, some index.items)
  else
    match fs.cache with
    | none => .error (.openFile cache_path)
    | some cached => .ok ({ path := csv_path, items := cached.2 }, none)

/-- C2 counterexample: with equal modification times (source mtime 5,
snapshot mtime 5) the snapshot is NOT treated as expired — `from_cache`
reuses the snapshot (returning its stored records, writing nothing, not
invoking the always-failing decoder) and `is_cache_expired` is `false` —
refuting "when the two modification times are equal the snapshot is
expired ... forces the next from_cache call to rebuild". -/
theorem equal_mtimes_snapshot_is_reused :
    CsvPartialCache.from_cache
        (fun l _ => (Except.error (.deserializeLine l) : Except Error (List Char × Nat)))
        64 "f.csv" "c.json" ⟨"h\na".data, 5, some (5, [("a".data, 2)])⟩
      = .ok (⟨"f.csv", [("a".data, 2)]⟩, none) ∧
    ¬ (is_cache_expired 5 (some 5) = true) :=
  ⟨rfl, by decide⟩

/-- C2 amended: `from_cache` treats the snapshot as expired (and therefore
rebuilds from the source and rewrites the snapshot) exactly when the
snapshot file does not exist or its modification time is STRICTLY older
than the source file's; when the two modification times are equal the
snapshot is reused, so touching the source file forces a rebuild only when
the touch makes the source's mtime strictly newer than the snapshot's. -/
theorem cache_expired_iff_snapshot_strictly_older {T : Type}
    (decoder : List Char → Nat → Except Error T) (cap : Nat)
    (csv_path cache_path : String) (csvM cacheM : Nat) (fs : FileSys T) :
    (is_cache_expired csvM none = true) ∧
    (is_cache_expired csvM (some cacheM) = true ↔ cacheM < csvM) ∧
    (is_cache_expired fs.csv_modified (fs.cache.map Prod.fst) = true →
      CsvPartialCache.from_cache decoder cap csv_path cache_path fs =
        match CsvPartialCache.new decoder cap csv_path fs.csv_content with
        | .error e => .error e
        | .ok index => .ok (index, some index.items)) := by
  refine ⟨rfl, by simp [is_cache_expired], ?_⟩
  intro hexp
  unfold CsvPartialCache.from_cache
  rw [if_pos hexp]

/-- Witness for the amended C2: with source mtime 7 a missing snapshot and
a snapshot of mtime 3 are both expired, and an expired `from_cache` call
rebuilds from the source, returning the fresh index and writing its items
to the snapshot. -/
theorem cache_expired_iff_snapshot_strictly_older_witness :
    (is_cache_expired 7 none = true) ∧
    (is_cache_expired 7 (some 3) = true ↔ 3 < 7) ∧
    CsvPartialCache.from_cache
        (fun l o => (Except.ok (l, o) : Except Error (List Char × Nat)))
        64 "f.csv" "c.json" ⟨"h\na".data, 7, none⟩
      = .ok (⟨"f.csv", [("a".data, 2)]⟩, some [("a".data, 2)]) :=
  have h := cache_expired_iff_snapshot_strictly_older
    (fun l o => (Except.ok (l, o) : Except Error (List Char × Nat)))
    64 "f.csv" "c.json" 7 3 ⟨"h\na".data, 7, none⟩
  ⟨h.1, h.2.1, (h.2.2 (by rfl)).trans (by rfl)⟩

/-- C3: round trip.  If an index was built from the source by `new` and its
items persisted to the snapshot, then while the snapshot is fresh (source
mtime ≤ snapshot mtime, i.e. the source was not touched after the write)
`from_cache` — run with an arbitrary second decoder, showing the line
decoder is not invoked on the source file again — returns an index whose
records are exactly the persisted ones and whose `path` field still points
at the source CSV file, and writes nothing to the snapshot. -/
theorem from_cache_fresh_round_trip {T : Type}
    (decoder decoder2 : List Char → Nat → Except Error T) (cap : Nat)
    (csv_path cache_path : String) (content : List Char) (csvM cacheM : Nat)
    (index : CsvPartialCache T)
    (hbuild : CsvPartialCache.new decoder cap csv_path content = .ok index)
    (hfresh : csvM ≤ cacheM) :
    CsvPartialCache.from_cache decoder2 cap csv_path cache_path
        ⟨content, csvM, some (cacheM, index.items)⟩
      = .ok ({ path := csv_path, items := index.items }, none) := by
  have hnotexp :
      ¬ (is_cache_expired csvM ((some (cacheM, index.items)).map Prod.fst) = true) := by
    simp [is_cache_expired]
    omega
  unfold CsvPartialCache.from_cache
  rw [if_neg hnotexp]

/-- Witness for C3: an index built from `"h\na"` is reloaded unchanged from
a snapshot of equal mtime, by a `from_cache` whose decoder always fails —
so the decode path provably cannot have run — with `path` still the source
file. -/
theorem from_cache_fresh_round_trip_witness :
    CsvPartialCache.from_cache
        (fun l _ => (Except.error (.deserializeLine l) : Except Error (List Char × Nat)))
        64 "f.csv" "c.json" ⟨"h\na".data, 4, some (9, [("a".data, 2)])⟩
      = .ok (⟨"f.csv", [("a".data, 2)]⟩, none) :=
  from_cache_fresh_round_trip
    (fun l o => (Except.ok (l, o) : Except Error (List Char × Nat)))
    (fun l _ => (Except.error (.deserializeLine l) : Except Error (List Char × Nat)))
    64 "f.csv" "c.json" "h\na".data 4 9 ⟨"f.csv", [("a".data, 2)]⟩
    (by rfl) (by decide)

/-- `CsvPartialCache::items_to_cache`: create the snapshot file and
serialize the items into it with `serde_json::to_writer`, modelled by the
fallible `ser`.  As in the source (line 313), a serialization failure is
wrapped in `Error::ReadCache` — even though the `Error::WriteCache` variant
("can't write cache into") exists, it is never constructed. -/
def CsvPartialCache.items_to_cache {T : Type} (ser : List T → Option Unit)
    (items : List T) (cache_path : String) : Except Error Unit :=
  match ser items with
  | some _ => .ok ()
  | none => .error (.readCache cache_path)

/-- `CsvPartialCache::items_from_cache`: open the snapshot file and
deserialize the record list with `serde_json::from_reader`, modelled by
`deser` (`none` when the snapshot bytes fail to deserialize); a failure is
wrapped in `Error::ReadCache`. -/
def CsvPartialCache.items_from_cache {T : Type} (deser : Option (List T))
    (cache_path : String) : Except Error (List T) :=
  match deser with
  | some items => .ok items
  | none => .error (.readCache cache_path)

/-- C10 (code bug): a serialization failure while WRITING the snapshot in
`items_to_cache` surfaces as `Error::ReadCache` ("can't read cache from") —
exactly the same error kind as a deserialization failure while READING the
snapshot in `items_from_cache` — so the write-side failure is not reported
distinctly, although the matching `Error::WriteCache` variant exists unused
in the source's error enum. -/
theorem snapshot_write_failure_reported_as_read_failure :
    CsvPartialCache.items_to_cache (fun _ => none) ([] : List Nat) "c.json"
        = .error (.readCache "c.json") ∧
    CsvPartialCache.items_from_cache (none : Option (List Nat)) "c.json"
        = .error (.readCache "c.json") :=
  ⟨rfl, rfl⟩
